import Mathlib

/-!
Verification of the MFCC feature-extraction pipeline in
`src/cpp/signal_processor.cpp` (class `SignalProcessor`).

The C++ code is shallowly embedded: 32-bit floats become exact reals,
`std::complex<float>` becomes `ℂ`, `std::vector` becomes `List`, and the
in-place FFT buffer becomes a functional array `ℕ → ℂ`.  Loops become
`List.foldl` over `List.range` or structural recursion with the loop's
own termination measure.  Division follows Lean's total-division
convention (`x / 0 = 0`) where the C++ code divides.
-/

open Finset

/-- `nextPowerOf2` inner loop: `power = 1; while (power < n) power *= 2;`.
The `0 < power` conjunct records the entry invariant (the loop is only
started with `power = 1`) and gives the termination measure. -/
def np2Loop (n power : ℕ) : ℕ :=
  if _h : power < n ∧ 0 < power then np2Loop n (power * 2) else power
termination_by n - power
decreasing_by omega

/-- `SignalProcessor::nextPowerOf2`. -/
def nextPowerOf2 (n : ℕ) : ℕ := np2Loop n 1

/-- The `bits` loop of `computeFFT`: `bits = 0; while ((1 << bits) < n) bits++;`. -/
def bitsLoop (n bits : ℕ) : ℕ :=
  if (1 <<< bits) < n then bitsLoop n (bits + 1) else bits
termination_by n - (1 <<< bits)
decreasing_by
  simp only [Nat.shiftLeft_eq, one_mul] at *
  have h1 : 0 < 2 ^ bits := pow_pos (by norm_num) bits
  omega

/-- `SignalProcessor::applyHammingWindow`:
`samples[i] *= 0.54 - 0.46 * cos(2*pi*i/(n-1))`. -/
noncomputable def applyHammingWindow (samples : List ℝ) : List ℝ :=
  (List.range samples.length).map fun i =>
    samples.getD i 0 *
      (0.54 - 0.46 * Real.cos (2 * Real.pi * i / ((samples.length : ℝ) - 1)))

/-- Per-index bit-reversal of `computeFFT`:
`rev = 0; for (j = 0; j < bits; j++) rev = (rev << 1) | ((i >> j) & 1);`. -/
def bitRevLoop (bits i : ℕ) : ℕ :=
  (List.range bits).foldl (fun rev j => (rev <<< 1) ||| ((i >>> j) &&& 1)) 0

/-- `std::swap(output[i], output[rev])` on the functional array. -/
def arrSwap (a : ℕ → ℂ) (i j : ℕ) : ℕ → ℂ :=
  fun p => if p = i then a j else if p = j then a i else a p

/-- The bit-reversal permutation loop of `computeFFT`. -/
def bitReversal (n bits : ℕ) (a : ℕ → ℂ) : ℕ → ℂ :=
  (List.range n).foldl (fun acc i =>
    if i < bitRevLoop bits i then arrSwap acc i (bitRevLoop bits i) else acc) a

/-- Body of the innermost butterfly loop of `computeFFT`; the state is the
array together with the running twiddle `w` (`w *= wlen` each iteration). -/
def butterflyStep (i len : ℕ) (wlen : ℂ) (st : (ℕ → ℂ) × ℂ) (j : ℕ) :
    (ℕ → ℂ) × ℂ :=
  let a := st.1
  let w := st.2
  let u := a (i + j)
  let v := w * a (i + j + len / 2)
  (fun p => if p = i + j then u + v else if p = i + j + len / 2 then u - v else a p,
   w * wlen)

/-- Middle loop of `computeFFT`: `for (i = 0; i < n; i += len)`, each block
running the inner butterfly loop with `w` starting at `1`.  The `2 ≤ len`
conjunct records the loop-entry invariant (`len` ranges over `2, 4, ...`)
and gives the termination measure. -/
def blockLoop (n len : ℕ) (wlen : ℂ) (i : ℕ) (a : ℕ → ℂ) : ℕ → ℂ :=
  if _h : i < n ∧ 2 ≤ len then
    blockLoop n len wlen (i + len)
      ((List.range (len / 2)).foldl (butterflyStep i len wlen) (a, 1)).1
  else a
termination_by n - i
decreasing_by omega

/-- One pass of `computeFFT` at a given `len`:
`angle = -2*pi/len; wlen = complex(cos(angle), sin(angle))`. -/
noncomputable def fftPass (n len : ℕ) (a : ℕ → ℂ) : ℕ → ℂ :=
  blockLoop n len ⟨Real.cos (-2 * Real.pi / len), Real.sin (-2 * Real.pi / len)⟩ 0 a

/-- Outer loop of `computeFFT`: `for (len = 2; len <= n; len <<= 1)`. -/
noncomputable def lenLoop (n len : ℕ) (a : ℕ → ℂ) : ℕ → ℂ :=
  if _h : 2 ≤ len ∧ len ≤ n then lenLoop n (len * 2) (fftPass n len a) else a
termination_by n + 1 - len
decreasing_by omega

/-- `SignalProcessor::computeFFT`: real input copied to a complex buffer,
bit-reversal permutation, then the iterative Cooley-Tukey passes. -/
noncomputable def computeFFT (input : List ℝ) : List ℂ :=
  (List.range input.length).map
    (lenLoop input.length 2
      (bitReversal input.length (bitsLoop input.length 0)
        (fun p => ((input.getD p 0 : ℝ) : ℂ))))

/-- `SignalProcessor::getPowerSpectrum`: `power[i] = std::norm(spectrum[i])`
for `i < size/2 + 1`. -/
noncomputable def getPowerSpectrum (spectrum : List ℂ) : List ℝ :=
  (List.range (spectrum.length / 2 + 1)).map fun i =>
    Complex.normSq (spectrum.getD i 0)

/-- `hzToMel(hz) = 2595 * log10(1 + hz/700)`. -/
noncomputable def hzToMel (hz : ℝ) : ℝ := 2595 * Real.logb 10 (1 + hz / 700)

/-- `melToHz(mel) = 700 * (pow(10, mel/2595) - 1)`. -/
noncomputable def melToHz (mel : ℝ) : ℝ := 700 * ((10 : ℝ) ^ (mel / 2595) - 1)

/-- `melMax = hzToMel(sampleRate / 2)` with `sampleRate = 44100`. -/
noncomputable def melMax : ℝ := hzToMel (44100 / 2)

/-- `melMin = hzToMel(20)`. -/
noncomputable def melMin : ℝ := hzToMel 20

/-- `melStep = (melMax - melMin) / (numBands + 1)` with `numBands = 40`. -/
noncomputable def melStep : ℝ := (melMax - melMin) / (40 + 1)

/-- `filterLength = fftSize / 2 + 1` with `fftSize = 2048`. -/
def filterLength : ℕ := 2048 / 2 + 1

/-- `bin = (int)floor(hz * filterLength / (sampleRate/2))` followed by the
clamp `max(0, min(filterLength - 1, bin))`. -/
noncomputable def binClamp (hz : ℝ) : ℕ :=
  (max 0 (min ((filterLength : ℤ) - 1)
    ⌊hz * (filterLength : ℝ) / (44100 / 2)⌋)).toNat

/-- Left bin edge of band `i`: `melLeft = melMin + i * melStep`. -/
noncomputable def binLeft (i : ℕ) : ℕ := binClamp (melToHz (melMin + i * melStep))

/-- Center bin of band `i`: `melCenter = melMin + (i+1) * melStep`. -/
noncomputable def binCenter (i : ℕ) : ℕ :=
  binClamp (melToHz (melMin + (i + 1) * melStep))

/-- Right bin edge of band `i`: `melRight = melMin + (i+2) * melStep`. -/
noncomputable def binRight (i : ℕ) : ℕ :=
  binClamp (melToHz (melMin + (i + 2) * melStep))

/-- Rising segment of `initMelFilterbank`:
`for (j = binLeft; j <= binCenter; j++) if (binCenter > binLeft)
  filter[j] = (j - binLeft) / float(binCenter - binLeft);`. -/
noncomputable def risingLoop (bl bc : ℕ) (filter : List ℝ) : List ℝ :=
  (List.range (bc + 1 - bl)).foldl
    (fun f d =>
      let j := bl + d
      if bl < bc then f.set j (((j - bl : ℕ) : ℝ) / ((bc - bl : ℕ) : ℝ)) else f)
    filter

/-- Falling segment of `initMelFilterbank`:
`for (j = binCenter; j <= binRight; j++) if (binRight > binCenter)
  filter[j] = (binRight - j) / float(binRight - binCenter);`. -/
noncomputable def fallingLoop (bc br : ℕ) (filter : List ℝ) : List ℝ :=
  (List.range (br + 1 - bc)).foldl
    (fun f d =>
      let j := bc + d
      if bc < br then f.set j (((br - j : ℕ) : ℝ) / ((br - bc : ℕ) : ℝ)) else f)
    filter

/-- One triangular filter of `initMelFilterbank`: a zero vector of length
`filterLength`, then the rising and falling segments. -/
noncomputable def mkFilter (i : ℕ) : List ℝ :=
  fallingLoop (binCenter i) (binRight i)
    (risingLoop (binLeft i) (binCenter i) (List.replicate filterLength 0))

/-- The mel filterbank built by the constructor:
`initMelFilterbank(2048, 44100, 40)`. -/
noncomputable def melFilterbank : List (List ℝ) := (List.range 40).map mkFilter

/-- `SignalProcessor::applyMelFilterbank`: for each filter,
`energy = sum over j < min(powerSpectrum.size, filter.size)` of
`powerSpectrum[j] * filter[j]`. -/
noncomputable def applyMelFilterbank (powerSpectrum : List ℝ) : List ℝ :=
  melFilterbank.map fun filter =>
    (List.range (min powerSpectrum.length filter.length)).foldl
      (fun energy j => energy + powerSpectrum.getD j 0 * filter.getD j 0) 0

/-- `SignalProcessor::computeDCT` with `numCoeffs = 13`:
`sum = Σ input[n] * cos(pi * k * (2n+1) / (2N))`, scaled by
`1/sqrt(N)` for `k = 0` and `sqrt(2/N)` otherwise. -/
noncomputable def computeDCT (input : List ℝ) : List ℝ :=
  (List.range 13).map fun (k : ℕ) =>
    (if k = 0 then
      ((List.range input.length).foldl
        (fun s n => s + input.getD n 0 *
          Real.cos (Real.pi * k * (2 * n + 1) / (2 * (input.length : ℝ)))) 0) *
        (1 / Real.sqrt (input.length : ℝ))
     else
      ((List.range input.length).foldl
        (fun s n => s + input.getD n 0 *
          Real.cos (Real.pi * k * (2 * n + 1) / (2 * (input.length : ℝ)))) 0) *
        Real.sqrt (2 / (input.length : ℝ)))

/-- Zero-padding step of `processSamples`:
`paddedSamples.resize(nextPowerOf2(samples.size()), 0.0f)`. -/
noncomputable def padPow2 (samples : List ℝ) : List ℝ :=
  samples ++ List.replicate (nextPowerOf2 samples.length - samples.length) 0

/-- Steps 1-3 of `processSamples`: pad, window, FFT, power spectrum. -/
noncomputable def powerSpectrumFor (samples : List ℝ) : List ℝ :=
  getPowerSpectrum (computeFFT (applyHammingWindow (padPow2 samples)))

/-- Step 4 of `processSamples`: the per-call mel energies. -/
noncomputable def melEnergiesFor (samples : List ℝ) : List ℝ :=
  applyMelFilterbank (powerSpectrumFor samples)

/-- Step 5 of `processSamples`: `energy = log(max(energy, 1e-10f))`. -/
noncomputable def logEnergiesFor (samples : List ℝ) : List ℝ :=
  (melEnergiesFor samples).map fun energy => Real.log (max energy 1e-10)

/-- `SignalProcessor::processSamples`, the composition of steps 1-6. -/
noncomputable def processSamples (samples : List ℝ) : List ℝ :=
  computeDCT (logEnergiesFor samples)

/-- The naive DFT reference from the spec:
`X[k] = Σ_{n<L} x[n] * exp(-2*pi*i*k*n/L)`. -/
noncomputable def dftNaive (x : ℕ → ℂ) (L k : ℕ) : ℂ :=
  ∑ n ∈ Finset.range L, x n * Complex.exp (-2 * Real.pi * Complex.I * k * n / L)

/-- The primitive twiddle `exp(-2*pi*i/L)`. -/
noncomputable def twiddle (L : ℕ) : ℂ := Complex.exp (-2 * Real.pi * Complex.I / L)

/-- Arithmetic form of the bit-reversal of an index: digit `j` of `i`
moved to position `bits - 1 - j`. -/
def bitRevVal (bits i : ℕ) : ℕ :=
  ∑ j ∈ Finset.range bits, (i / 2 ^ j % 2) * 2 ^ (bits - 1 - j)

/-- The spec's orthonormal type-II DCT (written from the spec's formula,
for comparison with `computeDCT`):
`coeff[k] = scale(k) * Σ_{n<N} logEnergy[n] * cos(pi*k*(2n+1)/(2N))`. -/
noncomputable def dctSpec (logEnergy : List ℝ) (k : ℕ) : ℝ :=
  (if k = 0 then 1 / Real.sqrt (logEnergy.length : ℝ)
   else Real.sqrt (2 / (logEnergy.length : ℝ))) *
  ∑ n ∈ Finset.range logEnergy.length,
    logEnergy.getD n 0 * Real.cos (Real.pi * k * (2 * n + 1) / (2 * (logEnergy.length : ℝ)))

/-- Loop invariant of the Cooley-Tukey passes: after the passes up to
block size `2^s` (on an array of length `2^m`), each block `b` holds the
DFT of the stride-`2^(m-s)` subsequence of the input starting at the
`(m-s)`-bit reversal of `b`. -/
def stageInv (x : ℕ → ℂ) (m s : ℕ) (a : ℕ → ℂ) : Prop :=
  ∀ b j, b < 2 ^ (m - s) → j < 2 ^ s →
    a (b * 2 ^ s + j) =
      ∑ t ∈ Finset.range (2 ^ s),
        x (bitRevVal (m - s) b + t * 2 ^ (m - s)) * twiddle (2 ^ s) ^ (j * t)

/-! ## Generic helper lemmas -/

theorem getD_map_range {α : Type} (f : ℕ → α) (d : α) {n k : ℕ} (hk : k < n) :
    ((List.range n).map f).getD k d = f k := by
  simp [List.getD_eq_getElem?_getD, List.getElem?_map, List.getElem?_range, hk]

theorem foldl_add_range {M : Type} [AddCommMonoid M] (f : ℕ → M) :
    ∀ (n : ℕ) (init : M),
      (List.range n).foldl (fun s j => s + f j) init = init + ∑ j ∈ Finset.range n, f j := by
  intro n
  induction n with
  | zero => simp
  | succ n ih =>
      intro init
      rw [List.range_succ, List.foldl_append, ih]
      simp [Finset.sum_range_succ, add_assoc]

theorem foldl_add_range_zero {M : Type} [AddCommMonoid M] (f : ℕ → M) (n : ℕ) :
    (List.range n).foldl (fun s j => s + f j) 0 = ∑ j ∈ Finset.range n, f j := by
  rw [foldl_add_range]; exact zero_add _

/-! ## C1: output length -/

/-- C1: for every input sample sequence, `processSamples` returns a vector of
exactly 13 elements, regardless of the input frame's length: `computeDCT`
always produces the 13 coefficients `k = 0, ..., 12`. -/
theorem c1_processSamples_length (samples : List ℝ) :
    (processSamples samples).length = 13 := by
  simp [processSamples, computeDCT]

/-! ## C8: the DCT matches the spec's orthonormal type-II DCT -/

/-- C8: for every log-energy vector, coefficient `k < 13` of `computeDCT`
equals the spec's orthonormal type-II DCT
`scale(k) * Σ_{n<N} logEnergy[n] * cos(pi*k*(2n+1)/(2N))` with
`scale(0) = 1/sqrt(N)` and `scale(k>0) = sqrt(2/N)`. -/
theorem c8_computeDCT_eq_dctSpec (input : List ℝ) (k : ℕ) (hk : k < 13) :
    (computeDCT input).getD k 0 = dctSpec input k := by
  rw [computeDCT, getD_map_range _ _ hk, dctSpec]
  rw [foldl_add_range_zero]
  rcases eq_or_ne k 0 with h | h <;> simp [h, mul_comm]

theorem c8_witness :
    (1 : ℕ) < 13 ∧ (computeDCT [1, 2]).getD 1 0 = dctSpec [1, 2] 1 :=
  ⟨by norm_num, c8_computeDCT_eq_dctSpec [1, 2] 1 (by norm_num)⟩

/-! ## C4: the Hamming window at padded length 1 -/

/-- C4 (failing input): the code has no `L = 1` guard.  On a frame of padded
length 1 it computes `w[0] = 0.54 - 0.46*cos(2*pi*0/(1-1))`, dividing by
zero; with Lean's total division `0/0 = 0` this evaluates to
`0.54 - 0.46 = 0.08`, not the `w[0] = 1` the claim requires (in C++ float
arithmetic the quotient `0.0/0.0` is NaN, so the sample is destroyed
either way). -/
theorem c4_hamming_length_one :
    applyHammingWindow [1] = [(0.08 : ℝ)] ∧ (0.08 : ℝ) ≠ 1 := by
  constructor
  · simp [applyHammingWindow, List.range_succ]
    norm_num
  · norm_num

/-! ## C5: degenerate-segment guards in the filterbank construction -/

theorem risingLoop_degenerate (bl : ℕ) (f : List ℝ) :
    risingLoop bl bl f = f := by
  simp [risingLoop, Nat.add_sub_cancel_left, List.range_succ]

theorem fallingLoop_degenerate (bc : ℕ) (f : List ℝ) :
    fallingLoop bc bc f = f := by
  simp [fallingLoop, Nat.add_sub_cancel_left, List.range_succ]

/-- C5: for every band of the constructed filterbank, if the clamped bin
edges satisfy `binCenter = binLeft` then the rising segment performs no
write (the affected weights stay at their initial value 0), and if
`binRight = binCenter` the falling segment performs no write; each guard
`binCenter > binLeft` / `binRight > binCenter` is exactly what the code
tests, so no weight is ever obtained by dividing by the zero denominator. -/
theorem c5_degenerate_guards (i : ℕ) :
    (binCenter i = binLeft i →
      risingLoop (binLeft i) (binCenter i) (List.replicate filterLength 0) =
        List.replicate filterLength 0) ∧
    (binRight i = binCenter i →
      fallingLoop (binCenter i) (binRight i)
          (risingLoop (binLeft i) (binCenter i) (List.replicate filterLength 0)) =
        risingLoop (binLeft i) (binCenter i) (List.replicate filterLength 0)) := by
  constructor
  · intro h; rw [h, risingLoop_degenerate]
  · intro h; rw [h, fallingLoop_degenerate]

theorem c5_witness :
    (binCenter 0 = binLeft 0 →
      risingLoop (binLeft 0) (binCenter 0) (List.replicate filterLength 0) =
        List.replicate filterLength 0) ∧
    (binRight 0 = binCenter 0 →
      fallingLoop (binCenter 0) (binRight 0)
          (risingLoop (binLeft 0) (binCenter 0) (List.replicate filterLength 0)) =
        risingLoop (binLeft 0) (binCenter 0) (List.replicate filterLength 0)) :=
  c5_degenerate_guards 0

/-! ## Characterization of the filter-construction loops -/

theorem getD_replicate_zero (n q : ℕ) : (List.replicate n (0 : ℝ)).getD q 0 = 0 := by
  rcases lt_or_le q n with h | h
  · rw [List.getD_eq_getElem (List.replicate n 0) 0 (by simpa using h)]
    simp
  · exact List.getD_eq_default _ _ (by simpa using h)

theorem foldl_id {α β : Type} (l : List β) (x : α) :
    l.foldl (fun a _ => a) x = x := by
  induction l generalizing x with
  | nil => rfl
  | cons b l ih => exact ih x

theorem foldl_set_len (g : ℕ → ℝ) (start : ℕ) :
    ∀ (cnt : ℕ) (f : List ℝ),
      ((List.range cnt).foldl (fun l d => l.set (start + d) (g d)) f).length = f.length := by
  intro cnt
  induction cnt with
  | zero => intro f; rfl
  | succ cnt ih =>
      intro f
      rw [List.range_succ, List.foldl_append, List.foldl_cons, List.foldl_nil,
        List.length_set]
      exact ih f

theorem foldl_set_getD (g : ℕ → ℝ) (start : ℕ) :
    ∀ (cnt : ℕ) (f : List ℝ) (q : ℕ),
      ((List.range cnt).foldl (fun l d => l.set (start + d) (g d)) f).getD q 0 =
      if start ≤ q ∧ q < start + cnt ∧ q < f.length then g (q - start)
      else f.getD q 0 := by
  intro cnt
  induction cnt with
  | zero =>
      intro f q
      rw [List.range_zero, List.foldl_nil, if_neg (by omega)]
  | succ cnt ih =>
      intro f q
      rw [List.range_succ, List.foldl_append, List.foldl_cons, List.foldl_nil]
      have hlen := foldl_set_len g start cnt f
      rw [List.getD_eq_getElem?_getD, List.getElem?_set, hlen]
      by_cases hq : start + cnt = q
      · subst hq
        by_cases hf : start + cnt < f.length
        · rw [if_pos rfl, if_pos hf]
          simp only [Option.getD_some]
          rw [if_pos ⟨by omega, by omega, hf⟩]
          congr 1
          omega
        · rw [if_pos rfl, if_neg hf]
          simp only [Option.getD_none]
          rw [if_neg (by omega)]
          exact (List.getD_eq_default _ _ (by omega)).symm
      · rw [if_neg hq, ← List.getD_eq_getElem?_getD, ih]
        by_cases h1 : start ≤ q ∧ q < start + cnt ∧ q < f.length
        · rw [if_pos h1, if_pos ⟨h1.1, by omega, h1.2.2⟩]
        · rw [if_neg h1, if_neg ?_]
          intro hcon
          obtain ⟨hcon1, hcon2, hcon3⟩ := hcon
          exact h1 ⟨hcon1, by omega, hcon3⟩

theorem foldl_guard_set_length (c : Prop) [Decidable c] (g : ℕ → ℝ) (start : ℕ)
    (cnt : ℕ) (f : List ℝ) :
    ((List.range cnt).foldl
      (fun l d => if c then l.set (start + d) (g d) else l) f).length = f.length := by
  by_cases hc : c
  · simp only [hc, if_true]
    exact foldl_set_len g start cnt f
  · simp only [hc, if_false]
    rw [foldl_id]

theorem foldl_guard_set_getD (c : Prop) [Decidable c] (g : ℕ → ℝ) (start : ℕ)
    (cnt : ℕ) (f : List ℝ) (q : ℕ) :
    ((List.range cnt).foldl
      (fun l d => if c then l.set (start + d) (g d) else l) f).getD q 0 =
    if c ∧ start ≤ q ∧ q < start + cnt ∧ q < f.length then g (q - start)
    else f.getD q 0 := by
  by_cases hc : c
  · simp only [hc, if_true, true_and]
    exact foldl_set_getD g start cnt f q
  · simp only [hc, if_false, false_and]
    rw [foldl_id]

theorem risingLoop_length (bl bc : ℕ) (f : List ℝ) :
    (risingLoop bl bc f).length = f.length := by
  have h := foldl_guard_set_length (bl < bc)
    (fun d => ((bl + d - bl : ℕ) : ℝ) / ((bc - bl : ℕ) : ℝ)) bl (bc + 1 - bl) f
  simpa only [risingLoop] using h

theorem fallingLoop_length (bc br : ℕ) (f : List ℝ) :
    (fallingLoop bc br f).length = f.length := by
  have h := foldl_guard_set_length (bc < br)
    (fun d => ((br - (bc + d) : ℕ) : ℝ) / ((br - bc : ℕ) : ℝ)) bc (br + 1 - bc) f
  simpa only [fallingLoop] using h

theorem risingLoop_getD (bl bc : ℕ) (f : List ℝ) (q : ℕ) :
    (risingLoop bl bc f).getD q 0 =
      if bl < bc ∧ bl ≤ q ∧ q ≤ bc ∧ q < f.length
      then ((q - bl : ℕ) : ℝ) / ((bc - bl : ℕ) : ℝ)
      else f.getD q 0 := by
  have h := foldl_guard_set_getD (bl < bc)
    (fun d => ((bl + d - bl : ℕ) : ℝ) / ((bc - bl : ℕ) : ℝ)) bl (bc + 1 - bl) f q
  simp only [risingLoop]
  rw [h]
  by_cases hc : bl < bc ∧ bl ≤ q ∧ q ≤ bc ∧ q < f.length
  · rw [if_pos ⟨hc.1, hc.2.1, by omega, hc.2.2.2⟩, if_pos hc]
    have harg : bl + (q - bl) - bl = q - bl := by omega
    rw [harg]
  · rw [if_neg ?_, if_neg hc]
    intro hA
    obtain ⟨h1, h2, h3, h4⟩ := hA
    exact hc ⟨h1, h2, by omega, h4⟩

theorem fallingLoop_getD (bc br : ℕ) (f : List ℝ) (q : ℕ) :
    (fallingLoop bc br f).getD q 0 =
      if bc < br ∧ bc ≤ q ∧ q ≤ br ∧ q < f.length
      then ((br - q : ℕ) : ℝ) / ((br - bc : ℕ) : ℝ)
      else f.getD q 0 := by
  have h := foldl_guard_set_getD (bc < br)
    (fun d => ((br - (bc + d) : ℕ) : ℝ) / ((br - bc : ℕ) : ℝ)) bc (br + 1 - bc) f q
  simp only [fallingLoop]
  rw [h]
  by_cases hc : bc < br ∧ bc ≤ q ∧ q ≤ br ∧ q < f.length
  · rw [if_pos ⟨hc.1, hc.2.1, by omega, hc.2.2.2⟩, if_pos hc]
    have harg : br - (bc + (q - bc)) = br - q := by omega
    rw [harg]
  · rw [if_neg ?_, if_neg hc]
    intro hA
    obtain ⟨h1, h2, h3, h4⟩ := hA
    exact hc ⟨h1, h2, by omega, h4⟩

/-! ## Ordering and range of the clamped bin edges -/

theorem filterLength_eq : filterLength = 1025 := rfl

theorem binClamp_le_1024 (hz : ℝ) : binClamp hz ≤ 1024 := by
  unfold binClamp
  rw [Int.toNat_le]
  apply max_le (by norm_num)
  exact le_trans (min_le_left _ _) (by norm_num [filterLength])

theorem binClamp_mono {h1 h2 : ℝ} (h : h1 ≤ h2) : binClamp h1 ≤ binClamp h2 := by
  unfold binClamp
  apply Int.toNat_le_toNat
  apply max_le_max (le_refl 0)
  apply min_le_min (le_refl _)
  apply Int.floor_mono
  apply (div_le_div_iff_of_pos_right (by norm_num : (0 : ℝ) < 44100 / 2)).mpr
  exact mul_le_mul_of_nonneg_right h (by positivity)

theorem melToHz_mono {m1 m2 : ℝ} (h : m1 ≤ m2) : melToHz m1 ≤ melToHz m2 := by
  unfold melToHz
  have hp : (10 : ℝ) ^ (m1 / 2595) ≤ (10 : ℝ) ^ (m2 / 2595) :=
    (Real.rpow_le_rpow_left_iff (by norm_num)).mpr (by linarith)
  linarith

theorem melMin_le_melMax : melMin ≤ melMax := by
  unfold melMin melMax hzToMel
  have h := Real.logb_le_logb_of_le (b := 10) (by norm_num)
    (show (0 : ℝ) < 1 + 20 / 700 by norm_num)
    (show (1 : ℝ) + 20 / 700 ≤ 1 + 44100 / 2 / 700 by norm_num)
  linarith

theorem melStep_nonneg : 0 ≤ melStep := by
  unfold melStep
  have := melMin_le_melMax
  apply div_nonneg (by linarith) (by norm_num)

theorem binLeft_le_binCenter (i : ℕ) : binLeft i ≤ binCenter i := by
  apply binClamp_mono
  apply melToHz_mono
  have := melStep_nonneg
  nlinarith [(Nat.cast_le (α := ℝ)).mpr (Nat.le_succ i)]

theorem binCenter_le_binRight (i : ℕ) : binCenter i ≤ binRight i := by
  apply binClamp_mono
  apply melToHz_mono
  have := melStep_nonneg
  nlinarith [(Nat.cast_le (α := ℝ)).mpr (Nat.le_succ (i + 1))]

/-! ## Shape of a constructed filter -/

theorem mkFilter_length (i : ℕ) : (mkFilter i).length = 1025 := by
  unfold mkFilter
  rw [fallingLoop_length, risingLoop_length, List.length_replicate, filterLength_eq]

theorem mkFilter_getD_nonneg (i q : ℕ) : 0 ≤ (mkFilter i).getD q 0 := by
  unfold mkFilter
  rw [fallingLoop_getD]
  split_ifs with h
  · positivity
  · rw [risingLoop_getD]
    split_ifs with h'
    · positivity
    · rw [getD_replicate_zero]

theorem mkFilter_getD_le_one (i q : ℕ) : (mkFilter i).getD q 0 ≤ 1 := by
  unfold mkFilter
  rw [fallingLoop_getD]
  split_ifs with h
  · obtain ⟨h1, h2, h3, h4⟩ := h
    rw [div_le_one (by exact_mod_cast Nat.sub_pos_of_lt h1)]
    exact_mod_cast Nat.sub_le_sub_left h2 _
  · rw [risingLoop_getD]
    split_ifs with h'
    · obtain ⟨h1, h2, h3, h4⟩ := h'
      rw [div_le_one (by exact_mod_cast Nat.sub_pos_of_lt h1)]
      exact_mod_cast Nat.sub_le_sub_right h3 _
    · rw [getD_replicate_zero]
      norm_num

theorem mkFilter_outside_zero (i q : ℕ) (h : q < binLeft i ∨ binRight i < q) :
    (mkFilter i).getD q 0 = 0 := by
  have hlc := binLeft_le_binCenter i
  have hcr := binCenter_le_binRight i
  unfold mkFilter
  rw [fallingLoop_getD, if_neg (by omega), risingLoop_getD, if_neg (by omega),
    getD_replicate_zero]

theorem mkFilter_center_one (i : ℕ) (_h1 : binLeft i < binCenter i)
    (h2 : binCenter i < binRight i) :
    (mkFilter i).getD (binCenter i) 0 = 1 := by
  have hc : binCenter i ≤ 1024 := binClamp_le_1024 _
  unfold mkFilter
  rw [fallingLoop_getD,
    if_pos ⟨h2, le_refl _, le_of_lt h2, by
      rw [risingLoop_length, List.length_replicate, filterLength_eq]; omega⟩]
  rw [div_self]
  exact_mod_cast Nat.sub_ne_zero_of_lt h2

theorem melFilterbank_getD (i : ℕ) (hi : i < 40) :
    melFilterbank.getD i [] = mkFilter i := by
  unfold melFilterbank
  exact getD_map_range mkFilter [] hi

/-! ## C6: triangular shape of every filter -/

/-- C6: every filter of the constructed mel filterbank has only
non-negative weights, weight exactly 0 at every index outside
`[binLeft, binRight]`, and weight exactly 1 at its center bin whenever
`binCenter` is strictly between `binLeft` and `binRight`. -/
theorem c6_filter_shape (i : ℕ) (hi : i < 40) :
    (∀ q, 0 ≤ (melFilterbank.getD i []).getD q 0) ∧
    (∀ q, q < binLeft i ∨ binRight i < q → (melFilterbank.getD i []).getD q 0 = 0) ∧
    (binLeft i < binCenter i → binCenter i < binRight i →
      (melFilterbank.getD i []).getD (binCenter i) 0 = 1) := by
  rw [melFilterbank_getD i hi]
  exact ⟨fun q => mkFilter_getD_nonneg i q,
    fun q h => mkFilter_outside_zero i q h,
    fun h1 h2 => mkFilter_center_one i h1 h2⟩

theorem c6_witness :
    (∀ q, 0 ≤ (melFilterbank.getD 0 []).getD q 0) ∧
    (∀ q, q < binLeft 0 ∨ binRight 0 < q → (melFilterbank.getD 0 []).getD q 0 = 0) ∧
    (binLeft 0 < binCenter 0 → binCenter 0 < binRight 0 →
      (melFilterbank.getD 0 []).getD (binCenter 0) 0 = 1) :=
  c6_filter_shape 0 (by norm_num)

/-! ## C10: filterbank dimensions and weight range -/

/-- C10: the constructed filterbank has exactly 40 filters, each a weight
vector of exactly 1025 = 2048/2 + 1 entries with every weight in `[0, 1]`;
the output of `computeDCT` always has exactly 13 entries.  All of these
dimensions (together with `sampleRate = 44100`, `melFloorHz = 20` and
`numCoeffs = 13`) are literals fixed by the constructor
`initMelFilterbank(2048, 44100, 40)` - the embedding's `melFilterbank` is
a closed constant, so every engine instance has the identical filterbank. -/
theorem c10_filterbank_dimensions :
    melFilterbank.length = 40 ∧
    (∀ i, i < 40 → (melFilterbank.getD i []).length = 1025) ∧
    (∀ i, i < 40 → ∀ q, 0 ≤ (melFilterbank.getD i []).getD q 0 ∧
      (melFilterbank.getD i []).getD q 0 ≤ 1) ∧
    (∀ input : List ℝ, (computeDCT input).length = 13) := by
  refine ⟨by simp [melFilterbank], ?_, ?_, ?_⟩
  · intro i hi
    rw [melFilterbank_getD i hi]
    exact mkFilter_length i
  · intro i hi q
    rw [melFilterbank_getD i hi]
    exact ⟨mkFilter_getD_nonneg i q, mkFilter_getD_le_one i q⟩
  · intro input
    simp [computeDCT]

theorem c10_witness :
    (melFilterbank.getD 0 []).length = 1025 ∧
    0 ≤ (melFilterbank.getD 0 []).getD 0 0 ∧
    (melFilterbank.getD 0 []).getD 0 0 ≤ 1 ∧
    (computeDCT []).length = 13 :=
  ⟨c10_filterbank_dimensions.2.1 0 (by norm_num),
   (c10_filterbank_dimensions.2.2.1 0 (by norm_num) 0).1,
   (c10_filterbank_dimensions.2.2.1 0 (by norm_num) 0).2,
   c10_filterbank_dimensions.2.2.2 []⟩

/-! ## Arithmetic of index bit-reversal -/

theorem sum_two_pow (b : ℕ) : ∑ l ∈ Finset.range b, 2 ^ l = 2 ^ b - 1 := by
  induction b with
  | zero => simp
  | succ b ih =>
      rw [Finset.sum_range_succ, ih]
      have h1 : 1 ≤ 2 ^ b := Nat.one_le_two_pow
      have h2 : 2 ^ (b + 1) = 2 * 2 ^ b := by ring
      omega

theorem two_mul_lor (r c : ℕ) (hc : c < 2) : r * 2 ||| c = 2 * r + c := by
  interval_cases c
  · simp [mul_comm]
  · have h := Nat.lor_bit false r true 0
    simp only [Nat.bit_false, Nat.bit_true, Bool.false_or] at h
    simp only [Nat.or_zero] at h
    simpa [mul_comm] using h

theorem bitRevLoop_succ (b i : ℕ) :
    bitRevLoop (b + 1) i = 2 * bitRevLoop b i + i / 2 ^ b % 2 := by
  unfold bitRevLoop
  rw [List.range_succ, List.foldl_append, List.foldl_cons, List.foldl_nil,
    Nat.shiftLeft_eq, Nat.shiftRight_eq_div_pow, Nat.and_one_is_mod, pow_one]
  exact two_mul_lor _ _ (Nat.mod_lt _ (by norm_num))

theorem bitRevVal_succ_top (b i : ℕ) :
    bitRevVal (b + 1) i = 2 * bitRevVal b i + i / 2 ^ b % 2 := by
  unfold bitRevVal
  rw [Finset.sum_range_succ, Finset.mul_sum]
  have h0 : b + 1 - 1 - b = 0 := by omega
  rw [h0, pow_zero, mul_one]
  congr 1
  apply Finset.sum_congr rfl
  intro j hj
  simp only [Finset.mem_range] at hj
  have h1 : b + 1 - 1 - j = (b - 1 - j) + 1 := by omega
  rw [h1, pow_succ]
  ring

theorem bitRevLoop_eq_bitRevVal (b i : ℕ) : bitRevLoop b i = bitRevVal b i := by
  induction b with
  | zero => simp [bitRevLoop, bitRevVal]
  | succ b ih => rw [bitRevLoop_succ, bitRevVal_succ_top, ih]

theorem bitRevVal_reflect (b i : ℕ) :
    bitRevVal b i = ∑ l ∈ Finset.range b, (i / 2 ^ (b - 1 - l) % 2) * 2 ^ l := by
  unfold bitRevVal
  rw [← Finset.sum_range_reflect (fun l => (i / 2 ^ (b - 1 - l) % 2) * 2 ^ l) b]
  apply Finset.sum_congr rfl
  intro j hj
  simp only [Finset.mem_range] at hj
  have h : b - 1 - (b - 1 - j) = j := by omega
  rw [h]

theorem bitRevVal_lt (b i : ℕ) : bitRevVal b i < 2 ^ b := by
  rw [bitRevVal_reflect]
  have hle : ∑ l ∈ Finset.range b, (i / 2 ^ (b - 1 - l) % 2) * 2 ^ l ≤
      ∑ l ∈ Finset.range b, 2 ^ l := by
    apply Finset.sum_le_sum
    intro l _
    have : i / 2 ^ (b - 1 - l) % 2 ≤ 1 := by omega
    calc (i / 2 ^ (b - 1 - l) % 2) * 2 ^ l ≤ 1 * 2 ^ l :=
          Nat.mul_le_mul_right _ this
      _ = 2 ^ l := one_mul _
  rw [sum_two_pow] at hle
  have h1 : 1 ≤ 2 ^ b := Nat.one_le_two_pow
  omega

theorem digits_div_mod (b : ℕ) :
    ∀ (d : ℕ → ℕ), (∀ l, d l ≤ 1) → ∀ k,
      (∑ l ∈ Finset.range b, d l * 2 ^ l) / 2 ^ k % 2 = if k < b then d k else 0 := by
  induction b with
  | zero =>
      intro d _ k
      simp [Nat.zero_div]
  | succ b ih =>
      intro d hd k
      have hsum : ∑ l ∈ Finset.range (b + 1), d l * 2 ^ l
          = d 0 + 2 * ∑ l ∈ Finset.range b, d (l + 1) * 2 ^ l := by
        rw [Finset.sum_range_succ', Finset.mul_sum]
        simp only [pow_zero, mul_one]
        rw [add_comm]
        congr 1
        apply Finset.sum_congr rfl
        intro l _
        rw [pow_succ]
        ring
      rw [hsum]
      rcases k with _ | k
      · simp only [pow_zero, Nat.div_one, if_pos (Nat.succ_pos b)]
        have := hd 0
        omega
      · have hstep : (d 0 + 2 * ∑ l ∈ Finset.range b, d (l + 1) * 2 ^ l) / 2 ^ (k + 1)
            = (∑ l ∈ Finset.range b, d (l + 1) * 2 ^ l) / 2 ^ k := by
          rw [pow_succ', ← Nat.div_div_eq_div_mul]
          have hd0 := hd 0
          have : (d 0 + 2 * ∑ l ∈ Finset.range b, d (l + 1) * 2 ^ l) / 2
              = ∑ l ∈ Finset.range b, d (l + 1) * 2 ^ l := by omega
          rw [this]
        rw [hstep, ih (fun l => d (l + 1)) (fun l => hd (l + 1)) k]
        by_cases hk : k < b
        · rw [if_pos hk, if_pos (by omega)]
        · rw [if_neg hk, if_neg (by omega)]

theorem digits_expansion : ∀ (b i : ℕ), i < 2 ^ b →
    ∑ j ∈ Finset.range b, (i / 2 ^ j % 2) * 2 ^ j = i := by
  intro b
  induction b with
  | zero =>
      intro i hi
      simp only [pow_zero] at hi
      interval_cases i
      simp
  | succ b ih =>
      intro i hi
      rw [Finset.sum_range_succ']
      have h2 : ∑ j ∈ Finset.range b, (i / 2 ^ (j + 1) % 2) * 2 ^ (j + 1)
          = 2 * ∑ j ∈ Finset.range b, ((i / 2) / 2 ^ j % 2) * 2 ^ j := by
        rw [Finset.mul_sum]
        apply Finset.sum_congr rfl
        intro j _
        rw [Nat.div_div_eq_div_mul, ← pow_succ', pow_succ]
        ring
      rw [h2, ih (i / 2) (by
        have h3 : 2 ^ (b + 1) = 2 * 2 ^ b := by ring
        omega)]
      simp only [pow_zero, Nat.div_one, mul_one]
      omega

theorem bitRevVal_involution (b i : ℕ) (hi : i < 2 ^ b) :
    bitRevVal b (bitRevVal b i) = i := by
  have hdig : ∀ k, bitRevVal b i / 2 ^ k % 2
      = if k < b then i / 2 ^ (b - 1 - k) % 2 else 0 := by
    intro k
    rw [bitRevVal_reflect]
    exact digits_div_mod b _ (fun l => by omega) k
  have hout : bitRevVal b (bitRevVal b i)
      = ∑ j ∈ Finset.range b, (bitRevVal b i / 2 ^ j % 2) * 2 ^ (b - 1 - j) := rfl
  rw [hout]
  have hcongr : ∑ j ∈ Finset.range b, (bitRevVal b i / 2 ^ j % 2) * 2 ^ (b - 1 - j)
      = ∑ j ∈ Finset.range b, (i / 2 ^ (b - 1 - j) % 2) * 2 ^ (b - 1 - j) := by
    apply Finset.sum_congr rfl
    intro j hj
    simp only [Finset.mem_range] at hj
    rw [hdig j, if_pos hj]
  rw [hcongr, Finset.sum_range_reflect (fun j => (i / 2 ^ j % 2) * 2 ^ j) b]
  exact digits_expansion b i hi

theorem bitRevVal_succ_bottom (w i : ℕ) :
    bitRevVal (w + 1) i = (i % 2) * 2 ^ w + bitRevVal w (i / 2) := by
  unfold bitRevVal
  rw [Finset.sum_range_succ']
  have hf0 : (i / 2 ^ 0 % 2) * 2 ^ (w + 1 - 1 - 0) = (i % 2) * 2 ^ w := by
    simp
  rw [hf0, add_comm]
  congr 1
  apply Finset.sum_congr rfl
  intro j hj
  simp only [Finset.mem_range] at hj
  have h1 : i / 2 ^ (j + 1) = (i / 2) / 2 ^ j := by
    rw [Nat.div_div_eq_div_mul, ← pow_succ']
  have h2 : w + 1 - 1 - (j + 1) = w - 1 - j := by omega
  rw [h1, h2]

theorem bitRevVal_two_mul (w b : ℕ) : bitRevVal (w + 1) (2 * b) = bitRevVal w b := by
  rw [bitRevVal_succ_bottom]
  have h1 : 2 * b % 2 = 0 := by omega
  have h2 : 2 * b / 2 = b := by omega
  rw [h1, h2, zero_mul, zero_add]

theorem bitRevVal_two_mul_add_one (w b : ℕ) :
    bitRevVal (w + 1) (2 * b + 1) = 2 ^ w + bitRevVal w b := by
  rw [bitRevVal_succ_bottom]
  have h1 : (2 * b + 1) % 2 = 1 := by omega
  have h2 : (2 * b + 1) / 2 = b := by omega
  rw [h1, h2, one_mul]

/-! ## Twiddle-factor identities -/

theorem wlen_eq_twiddle (len : ℕ) :
    (⟨Real.cos (-2 * Real.pi / len), Real.sin (-2 * Real.pi / len)⟩ : ℂ) =
      twiddle len := by
  unfold twiddle
  have harg : (-2 * (Real.pi : ℂ) * Complex.I / (len : ℂ))
      = ((-2 * Real.pi / (len : ℝ) : ℝ) : ℂ) * Complex.I := by
    push_cast
    ring
  rw [harg, Complex.exp_mul_I, ← Complex.ofReal_cos, ← Complex.ofReal_sin,
    Complex.mk_eq_add_mul_I]

theorem twiddle_sq (L : ℕ) (hL : L ≠ 0) : twiddle (2 * L) ^ 2 = twiddle L := by
  unfold twiddle
  rw [← Complex.exp_nat_mul]
  congr 1
  have hL' : (L : ℂ) ≠ 0 := Nat.cast_ne_zero.mpr hL
  push_cast
  field_simp
  ring

theorem twiddle_pow_half (L : ℕ) (hL : L ≠ 0) : twiddle (2 * L) ^ L = -1 := by
  unfold twiddle
  rw [← Complex.exp_nat_mul]
  have hL' : (L : ℂ) ≠ 0 := Nat.cast_ne_zero.mpr hL
  have harg : (L : ℂ) * (-2 * (Real.pi : ℂ) * Complex.I / ((2 * L : ℕ) : ℂ))
      = -((Real.pi : ℂ) * Complex.I) := by
    push_cast
    field_simp
    ring
  rw [harg, Complex.exp_neg, Complex.exp_pi_mul_I]
  norm_num

theorem twiddle_pow_cycle (L t : ℕ) (hL : L ≠ 0) : twiddle L ^ (L * t) = 1 := by
  unfold twiddle
  rw [← Complex.exp_nat_mul]
  have hL' : (L : ℂ) ≠ 0 := Nat.cast_ne_zero.mpr hL
  have harg : ((L * t : ℕ) : ℂ) * (-2 * (Real.pi : ℂ) * Complex.I / (L : ℂ))
      = ((-(t : ℤ) : ℤ) : ℂ) * (2 * (Real.pi : ℂ) * Complex.I) := by
    push_cast
    field_simp
    ring
  rw [harg, Complex.exp_int_mul_two_pi_mul_I]

theorem twiddle_pow_eq_exp (L e : ℕ) :
    twiddle L ^ e = Complex.exp (-2 * Real.pi * Complex.I * e / L) := by
  unfold twiddle
  rw [← Complex.exp_nat_mul]
  congr 1
  ring

/-! ## Even/odd splitting of a sum -/

theorem sum_range_even_odd (L : ℕ) (f : ℕ → ℂ) :
    ∑ u ∈ Finset.range (2 * L), f u
      = ∑ t ∈ Finset.range L, f (2 * t) + ∑ t ∈ Finset.range L, f (2 * t + 1) := by
  induction L with
  | zero => simp
  | succ L ih =>
      have h2 : 2 * (L + 1) = (2 * L + 1) + 1 := by ring
      rw [h2, Finset.sum_range_succ, Finset.sum_range_succ, Finset.sum_range_succ,
        Finset.sum_range_succ, ih]
      ring

/-! ## The inner butterfly loop -/

theorem butterfly_fold (i len : ℕ) (wlen : ℂ) (a : ℕ → ℂ) (h2 : 0 < len / 2) :
    ∀ t, t ≤ len / 2 →
      (∀ p, ((List.range t).foldl (butterflyStep i len wlen) (a, 1)).1 p =
        if i ≤ p ∧ p < i + t then a p + wlen ^ (p - i) * a (p + len / 2)
        else if i + len / 2 ≤ p ∧ p < i + len / 2 + t then
          a (p - len / 2) - wlen ^ (p - i - len / 2) * a p
        else a p) ∧
      ((List.range t).foldl (butterflyStep i len wlen) (a, 1)).2 = wlen ^ t := by
  intro t
  induction t with
  | zero =>
      intro _
      constructor
      · intro p
        rw [List.range_zero, List.foldl_nil, if_neg (by omega), if_neg (by omega)]
      · rw [List.range_zero, List.foldl_nil, pow_zero]
  | succ t ih =>
      intro ht
      obtain ⟨ih1, ih2⟩ := ih (by omega)
      rw [List.range_succ, List.foldl_append, List.foldl_cons, List.foldl_nil]
      set S := (List.range t).foldl (butterflyStep i len wlen) (a, 1) with hS
      have hstep1 : (butterflyStep i len wlen S t).1
          = fun p => if p = i + t then S.1 (i + t) + S.2 * S.1 (i + t + len / 2)
              else if p = i + t + len / 2 then
                S.1 (i + t) - S.2 * S.1 (i + t + len / 2)
              else S.1 p := rfl
      have hstep2 : (butterflyStep i len wlen S t).2 = S.2 * wlen := rfl
      have ha1 : S.1 (i + t) = a (i + t) := by
        rw [ih1, if_neg (by omega), if_neg (by omega)]
      have ha2 : S.1 (i + t + len / 2) = a (i + t + len / 2) := by
        rw [ih1, if_neg (by omega), if_neg (by omega)]
      constructor
      · intro p
        rw [hstep1]
        simp only []
        by_cases hp1 : p = i + t
        · subst hp1
          rw [if_pos rfl, ha1, ha2, ih2, if_pos ⟨by omega, by omega⟩]
          have he : i + t - i = t := by omega
          rw [he]
        · by_cases hp2 : p = i + t + len / 2
          · subst hp2
            rw [if_neg hp1, if_pos rfl, ha1, ha2, ih2,
              if_neg (by omega), if_pos ⟨by omega, by omega⟩]
            have he1 : i + t + len / 2 - len / 2 = i + t := by omega
            have he2 : i + t + len / 2 - i - len / 2 = t := by omega
            rw [he1, he2]
          · rw [if_neg hp1, if_neg hp2, ih1]
            by_cases hc1 : i ≤ p ∧ p < i + t
            · rw [if_pos hc1, if_pos (by omega)]
            · by_cases hc2 : i + len / 2 ≤ p ∧ p < i + len / 2 + t
              · rw [if_neg hc1, if_pos hc2, if_neg (by omega), if_pos (by omega)]
              · rw [if_neg hc1, if_neg hc2, if_neg (by omega), if_neg (by omega)]
      · rw [hstep2, ih2, pow_succ]

/-! ## Block decomposition arithmetic -/

theorem mod_eq_sub_of_block (len i p : ℕ) (hdvd : len ∣ i) (h1 : i ≤ p)
    (h2 : p < i + len) : p % len = p - i := by
  obtain ⟨q, rfl⟩ := hdvd
  have key : (len * q + (p - len * q)) % len = (p - len * q) % len :=
    Nat.mul_add_mod len q _
  have hp : len * q + (p - len * q) = p := by omega
  rw [hp] at key
  rw [key, Nat.mod_eq_of_lt (by omega)]

theorem block_sub_half_ge (len i p : ℕ) (hlen : 0 < len) (hdvd : len ∣ i)
    (h1 : i + len ≤ p) (h2 : len / 2 ≤ p % len) : i + len ≤ p - len / 2 := by
  obtain ⟨q, rfl⟩ := hdvd
  have hdm := Nat.div_add_mod p len
  have hmlt : p % len < len := Nat.mod_lt _ hlen
  have hq : q + 1 ≤ p / len := by
    by_contra hcon
    push_neg at hcon
    have hle : p / len ≤ q := by omega
    have := Nat.mul_le_mul (le_refl len) hle
    omega
  have hmul : len * (q + 1) ≤ len * (p / len) := Nat.mul_le_mul (le_refl len) hq
  have hexp : len * (q + 1) = len * q + len := by ring
  omega

theorem block_end_le (len i n : ℕ) (hdvd_i : len ∣ i) (hdvd_n : len ∣ n)
    (h : i < n) : i + len ≤ n := by
  obtain ⟨q, rfl⟩ := hdvd_i
  obtain ⟨m, rfl⟩ := hdvd_n
  have hq : q + 1 ≤ m := by
    by_contra hcon
    push_neg at hcon
    have hle : m ≤ q := by omega
    have := Nat.mul_le_mul (le_refl len) hle
    omega
  have hmul : len * (q + 1) ≤ len * m := Nat.mul_le_mul (le_refl len) hq
  have hexp : len * (q + 1) = len * q + len := by ring
  omega

/-! ## The middle (block) loop of a pass -/

theorem blockLoop_sections (n len : ℕ) (wlen : ℂ) (hlen : 2 ≤ len)
    (heven : len % 2 = 0) (hdvd_n : len ∣ n) :
    ∀ (d i : ℕ) (a : ℕ → ℂ), n - i = d → i ≤ n → len ∣ i →
      (∀ p, p < i → blockLoop n len wlen i a p = a p) ∧
      (∀ p, n ≤ p → blockLoop n len wlen i a p = a p) ∧
      (∀ p, i ≤ p → p < n →
        blockLoop n len wlen i a p =
          if p % len < len / 2 then a p + wlen ^ (p % len) * a (p + len / 2)
          else a (p - len / 2) - wlen ^ (p % len - len / 2) * a p) := by
  intro d
  induction d using Nat.strong_induction_on with
  | _ d ih =>
    intro i a hd hin hdvd_i
    by_cases hcond : i < n
    · have hunfold : blockLoop n len wlen i a
          = blockLoop n len wlen (i + len)
              ((List.range (len / 2)).foldl (butterflyStep i len wlen) (a, 1)).1 := by
        conv_lhs => rw [blockLoop]
        rw [dif_pos ⟨hcond, hlen⟩]
      have hlen2 : 0 < len / 2 := by omega
      have hbf := (butterfly_fold i len wlen a hlen2 (len / 2) (le_refl _)).1
      have hBout : ∀ p, p < i ∨ i + len ≤ p →
          ((List.range (len / 2)).foldl (butterflyStep i len wlen) (a, 1)).1 p
            = a p := by
        intro p hp
        rw [hbf p, if_neg (by omega), if_neg (by omega)]
      have hBin : ∀ p, i ≤ p → p < i + len →
          ((List.range (len / 2)).foldl (butterflyStep i len wlen) (a, 1)).1 p =
          if p % len < len / 2 then a p + wlen ^ (p % len) * a (p + len / 2)
          else a (p - len / 2) - wlen ^ (p % len - len / 2) * a p := by
        intro p hp1 hp2
        have hmod : p % len = p - i := mod_eq_sub_of_block len i p hdvd_i hp1 hp2
        rw [hbf p, hmod]
        by_cases hr : p - i < len / 2
        · rw [if_pos ⟨hp1, by omega⟩, if_pos hr]
        · rw [if_neg (by omega), if_pos ⟨by omega, by omega⟩, if_neg hr]
      have hiend : i + len ≤ n := block_end_le len i n hdvd_i hdvd_n hcond
      obtain ⟨ih1, ih2, ih3⟩ := ih (n - (i + len)) (by omega) (i + len)
        ((List.range (len / 2)).foldl (butterflyStep i len wlen) (a, 1)).1 rfl
        (by omega) (Nat.dvd_add hdvd_i dvd_rfl)
      refine ⟨?_, ?_, ?_⟩
      · intro p hp
        rw [hunfold, ih1 p (by omega), hBout p (Or.inl hp)]
      · intro p hp
        rw [hunfold, ih2 p hp, hBout p (Or.inr (by omega))]
      · intro p hp1 hp2
        by_cases hpin : p < i + len
        · rw [hunfold, ih1 p hpin, hBin p hp1 hpin]
        · have hple : i + len ≤ p := by omega
          rw [hunfold, ih3 p hple hp2]
          have hpmod : p % len < len := Nat.mod_lt _ (by omega)
          by_cases hr : p % len < len / 2
          · rw [if_pos hr, if_pos hr, hBout p (Or.inr hple),
              hBout (p + len / 2) (Or.inr (by omega))]
          · have hsub := block_sub_half_ge len i p (by omega) hdvd_i hple (by omega)
            rw [if_neg hr, if_neg hr, hBout p (Or.inr hple),
              hBout (p - len / 2) (Or.inr hsub)]
    · have hexit : blockLoop n len wlen i a = a := by
        conv_lhs => rw [blockLoop]
        rw [dif_neg (by omega)]
      refine ⟨?_, ?_, ?_⟩
      · intro p _
        rw [hexit]
      · intro p _
        rw [hexit]
      · intro p hp1 hp2
        exact absurd hp2 (by omega)

/-! ## One full pass -/

theorem fftPass_sections (n len : ℕ) (hlen : 2 ≤ len) (heven : len % 2 = 0)
    (hdvd_n : len ∣ n) (a : ℕ → ℂ) (p : ℕ) (hp : p < n) :
    fftPass n len a p =
      if p % len < len / 2 then a p + twiddle len ^ (p % len) * a (p + len / 2)
      else a (p - len / 2) - twiddle len ^ (p % len - len / 2) * a p := by
  unfold fftPass
  rw [wlen_eq_twiddle]
  exact (blockLoop_sections n len (twiddle len) hlen heven hdvd_n (n - 0) 0 a rfl
    (by omega) (dvd_zero len)).2.2 p (by omega) hp

/-! ## The stage invariant is preserved by each pass -/

theorem stage_step (x : ℕ → ℂ) (m s : ℕ) (hs : s < m) (a : ℕ → ℂ)
    (ha : stageInv x m s a) :
    stageInv x m (s + 1) (fftPass (2 ^ m) (2 ^ (s + 1)) a) := by
  intro b j hb hj
  obtain ⟨w, hw⟩ : ∃ w, m - s = w + 1 := ⟨m - s - 1, by omega⟩
  have hww : m - (s + 1) = w := by omega
  rw [hww] at hb ⊢
  unfold stageInv at ha
  rw [hw] at ha
  have h2s0 : (2 : ℕ) ^ s ≠ 0 := by positivity
  have hlen : 2 ≤ 2 ^ (s + 1) := by
    have h1 : 1 ≤ 2 ^ s := Nat.one_le_two_pow
    rw [pow_succ]
    omega
  have heven : 2 ^ (s + 1) % 2 = 0 := by
    rw [pow_succ]
    omega
  have hdvd : 2 ^ (s + 1) ∣ 2 ^ m := pow_dvd_pow 2 (by omega)
  have hhalf : 2 ^ (s + 1) / 2 = 2 ^ s := by
    rw [pow_succ]
    omega
  have hpowm : 2 ^ w * 2 ^ (s + 1) = 2 ^ m := by
    rw [← pow_add]
    congr 1
    omega
  have hplt : b * 2 ^ (s + 1) + j < 2 ^ m := by
    have h1 : (b + 1) * 2 ^ (s + 1) ≤ 2 ^ w * 2 ^ (s + 1) :=
      Nat.mul_le_mul (by omega) (le_refl _)
    have h3 : (b + 1) * 2 ^ (s + 1) = b * 2 ^ (s + 1) + 2 ^ (s + 1) := by ring
    omega
  have hmod : (b * 2 ^ (s + 1) + j) % 2 ^ (s + 1) = j := by
    have h1 : b * 2 ^ (s + 1) + j = 2 ^ (s + 1) * b + j := by ring
    rw [h1, Nat.mul_add_mod, Nat.mod_eq_of_lt hj]
  rw [fftPass_sections (2 ^ m) (2 ^ (s + 1)) hlen heven hdvd a _ hplt, hmod, hhalf]
  have hpow : (2 : ℕ) ^ (s + 1) = 2 * 2 ^ s := by
    rw [pow_succ]
    ring
  rw [hpow]
  rw [sum_range_even_odd (2 ^ s)
    (fun t => x (bitRevVal w b + t * 2 ^ w) * twiddle (2 * 2 ^ s) ^ (j * t))]
  have hb0 : 2 * b < 2 ^ (w + 1) := by
    have h1 : 2 ^ (w + 1) = 2 * 2 ^ w := by
      rw [pow_succ]
      ring
    omega
  have hb1 : 2 * b + 1 < 2 ^ (w + 1) := by
    have h1 : 2 ^ (w + 1) = 2 * 2 ^ w := by
      rw [pow_succ]
      ring
    omega
  have hxarg0 : ∀ t : ℕ, bitRevVal w b + 2 * t * 2 ^ w
      = bitRevVal (w + 1) (2 * b) + t * 2 ^ (w + 1) := by
    intro t
    rw [bitRevVal_two_mul]
    have h1 : (2 : ℕ) ^ (w + 1) = 2 ^ w * 2 := by rw [pow_succ]
    rw [h1]
    ring
  have hxarg1 : ∀ t : ℕ, bitRevVal w b + (2 * t + 1) * 2 ^ w
      = bitRevVal (w + 1) (2 * b + 1) + t * 2 ^ (w + 1) := by
    intro t
    rw [bitRevVal_two_mul_add_one]
    have h1 : (2 : ℕ) ^ (w + 1) = 2 ^ w * 2 := by rw [pow_succ]
    rw [h1]
    ring
  by_cases hjs : j < 2 ^ s
  · rw [if_pos hjs]
    have hEv : ∑ t ∈ Finset.range (2 ^ s),
        x (bitRevVal w b + 2 * t * 2 ^ w) * twiddle (2 * 2 ^ s) ^ (j * (2 * t))
        = a (2 * b * 2 ^ s + j) := by
      rw [ha (2 * b) j hb0 hjs]
      apply Finset.sum_congr rfl
      intro t _
      rw [hxarg0 t]
      congr 1
      have he : j * (2 * t) = 2 * (j * t) := by ring
      rw [he, pow_mul (twiddle (2 * 2 ^ s)) 2 (j * t), twiddle_sq _ h2s0]
    have hOd : ∑ t ∈ Finset.range (2 ^ s),
        x (bitRevVal w b + (2 * t + 1) * 2 ^ w) * twiddle (2 * 2 ^ s) ^ (j * (2 * t + 1))
        = twiddle (2 * 2 ^ s) ^ j * a ((2 * b + 1) * 2 ^ s + j) := by
      rw [ha (2 * b + 1) j hb1 hjs, Finset.mul_sum]
      apply Finset.sum_congr rfl
      intro t _
      rw [hxarg1 t]
      have he : j * (2 * t + 1) = j + 2 * (j * t) := by ring
      rw [he, pow_add (twiddle (2 * 2 ^ s)) j (2 * (j * t)),
        pow_mul (twiddle (2 * 2 ^ s)) 2 (j * t), twiddle_sq _ h2s0]
      ring
    rw [hEv, hOd]
    have harg1 : b * (2 * 2 ^ s) + j = 2 * b * 2 ^ s + j := by ring
    have harg2 : b * (2 * 2 ^ s) + j + 2 ^ s = (2 * b + 1) * 2 ^ s + j := by ring
    rw [harg2, harg1]
  · rw [if_neg hjs]
    obtain ⟨j', hj'⟩ : ∃ j', j = 2 ^ s + j' := ⟨j - 2 ^ s, by omega⟩
    have hj's : j' < 2 ^ s := by
      have h1 : 2 * 2 ^ s = 2 ^ s + 2 ^ s := by ring
      omega
    have hEv : ∑ t ∈ Finset.range (2 ^ s),
        x (bitRevVal w b + 2 * t * 2 ^ w) * twiddle (2 * 2 ^ s) ^ (j * (2 * t))
        = a (2 * b * 2 ^ s + j') := by
      rw [ha (2 * b) j' hb0 hj's]
      apply Finset.sum_congr rfl
      intro t _
      rw [hxarg0 t]
      congr 1
      have he : j * (2 * t) = 2 * 2 ^ s * t + 2 * (j' * t) := by
        rw [hj']
        ring
      rw [he, pow_add (twiddle (2 * 2 ^ s)) (2 * 2 ^ s * t) (2 * (j' * t)),
        twiddle_pow_cycle _ t (by positivity),
        pow_mul (twiddle (2 * 2 ^ s)) 2 (j' * t), twiddle_sq _ h2s0, one_mul]
    have hOd : ∑ t ∈ Finset.range (2 ^ s),
        x (bitRevVal w b + (2 * t + 1) * 2 ^ w) * twiddle (2 * 2 ^ s) ^ (j * (2 * t + 1))
        = -(twiddle (2 * 2 ^ s) ^ j' * a ((2 * b + 1) * 2 ^ s + j')) := by
      rw [ha (2 * b + 1) j' hb1 hj's, Finset.mul_sum, ← Finset.sum_neg_distrib]
      apply Finset.sum_congr rfl
      intro t _
      rw [hxarg1 t]
      have he : j * (2 * t + 1) = 2 * 2 ^ s * t + 2 ^ s + 2 * (j' * t) + j' := by
        rw [hj']
        ring
      rw [he,
        pow_add (twiddle (2 * 2 ^ s)) (2 * 2 ^ s * t + 2 ^ s + 2 * (j' * t)) j',
        pow_add (twiddle (2 * 2 ^ s)) (2 * 2 ^ s * t + 2 ^ s) (2 * (j' * t)),
        pow_add (twiddle (2 * 2 ^ s)) (2 * 2 ^ s * t) (2 ^ s),
        twiddle_pow_cycle _ t (by positivity),
        twiddle_pow_half _ h2s0,
        pow_mul (twiddle (2 * 2 ^ s)) 2 (j' * t), twiddle_sq _ h2s0, one_mul]
      ring
    rw [hEv, hOd]
    have hj'e : j - 2 ^ s = j' := by omega
    have harg1 : b * (2 * 2 ^ s) + j - 2 ^ s = 2 * b * 2 ^ s + j' := by
      have e1 : b * (2 * 2 ^ s) = 2 * b * 2 ^ s := by ring
      omega
    have harg2 : b * (2 * 2 ^ s) + j = (2 * b + 1) * 2 ^ s + j' := by
      have e1 : b * (2 * 2 ^ s) = 2 * b * 2 ^ s := by ring
      have e2 : (2 * b + 1) * 2 ^ s = 2 * b * 2 ^ s + 2 ^ s := by ring
      omega
    rw [hj'e, harg1, harg2]
    ring

/-! ## The bit-reversal permutation loop -/

theorem bitReversal_fold_inv (bits : ℕ) (a : ℕ → ℂ) :
    ∀ (i : ℕ), i ≤ 2 ^ bits → ∀ q,
      ((List.range i).foldl (fun acc x =>
        if x < bitRevLoop bits x then arrSwap acc x (bitRevLoop bits x) else acc) a) q =
      if q < 2 ^ bits ∧ min q (bitRevLoop bits q) < i then a (bitRevLoop bits q)
      else a q := by
  have hrevlt : ∀ x, bitRevLoop bits x < 2 ^ bits := by
    intro x
    rw [bitRevLoop_eq_bitRevVal]
    exact bitRevVal_lt bits x
  have hinv : ∀ x, x < 2 ^ bits → bitRevLoop bits (bitRevLoop bits x) = x := by
    intro x hx
    rw [bitRevLoop_eq_bitRevVal, bitRevLoop_eq_bitRevVal]
    exact bitRevVal_involution bits x hx
  have harr : ∀ (f : ℕ → ℂ) (u v p : ℕ),
      arrSwap f u v p = if p = u then f v else if p = v then f u else f p :=
    fun f u v p => rfl
  intro i
  induction i with
  | zero =>
      intro _ q
      rw [List.range_zero, List.foldl_nil, if_neg (by omega)]
  | succ i ih =>
      intro hi q
      rw [List.range_succ, List.foldl_append, List.foldl_cons, List.foldl_nil]
      have hin : i < 2 ^ bits := by omega
      have hilt := hrevlt i
      by_cases hlt : i < bitRevLoop bits i
      · rw [if_pos hlt, harr]
        by_cases hq1 : q = i
        · subst hq1
          rw [if_pos rfl, ih (by omega) (bitRevLoop bits q)]
          rw [hinv q hin, if_neg (by omega), if_pos ⟨hin, by omega⟩]
        · by_cases hq2 : q = bitRevLoop bits i
          · rw [if_neg hq1, if_pos hq2, ih (by omega) i, if_neg (by omega), hq2,
              hinv i hin, if_pos ⟨hilt, by omega⟩]
          · rw [if_neg hq1, if_neg hq2, ih (by omega) q]
            by_cases hq3 : q < 2 ^ bits ∧ min q (bitRevLoop bits q) < i
            · rw [if_pos hq3, if_pos ⟨hq3.1, by omega⟩]
            · rw [if_neg hq3, if_neg ?_]
              intro hcon
              obtain ⟨hc1, hc2⟩ := hcon
              apply hq3
              refine ⟨hc1, ?_⟩
              rcases Nat.lt_succ_iff_lt_or_eq.mp hc2 with h | h
              · exact h
              · exfalso
                rcases le_or_lt q (bitRevLoop bits q) with hcase | hcase
                · exact hq1 (by omega)
                · have he1 : bitRevLoop bits q = i := by omega
                  have he2 : q = bitRevLoop bits i := by
                    rw [← he1, hinv q hc1]
                  exact hq2 he2
      · rw [if_neg hlt, ih (by omega) q]
        by_cases hq3 : q < 2 ^ bits ∧ min q (bitRevLoop bits q) < i
        · rw [if_pos hq3, if_pos ⟨hq3.1, by omega⟩]
        · rw [if_neg hq3]
          by_cases hq4 : q < 2 ^ bits ∧ min q (bitRevLoop bits q) < i + 1
          · rw [if_pos hq4]
            have hmin : min q (bitRevLoop bits q) = i := by omega
            have hrle : bitRevLoop bits i ≤ i := by omega
            have hq_eq : bitRevLoop bits q = q := by
              rcases le_or_lt q (bitRevLoop bits q) with hcase | hcase
              · have hq_i : q = i := by omega
                subst hq_i
                omega
              · have he1 : bitRevLoop bits q = i := by omega
                have he2 : q = bitRevLoop bits i := by
                  rw [← he1, hinv q hq4.1]
                omega
            rw [hq_eq]
          · rw [if_neg hq4]

theorem bitReversal_apply (bits : ℕ) (a : ℕ → ℂ) (q : ℕ) :
    bitReversal (2 ^ bits) bits a q =
      if q < 2 ^ bits then a (bitRevLoop bits q) else a q := by
  unfold bitReversal
  rw [bitReversal_fold_inv bits a (2 ^ bits) (le_refl _) q]
  by_cases hq : q < 2 ^ bits
  · rw [if_pos ⟨hq, by omega⟩, if_pos hq]
  · rw [if_neg (by omega), if_neg hq]

/-! ## The `bits` loop on a power of two -/

theorem bitsLoop_two_pow (m : ℕ) :
    ∀ (d b : ℕ), m - b = d → b ≤ m → bitsLoop (2 ^ m) b = m := by
  intro d
  induction d using Nat.strong_induction_on with
  | _ d ih =>
    intro b hd hbm
    by_cases hlt : b < m
    · have hguard : (1 <<< b) < 2 ^ m := by
        rw [Nat.shiftLeft_eq, one_mul]
        exact Nat.pow_lt_pow_right (by norm_num) hlt
      have hstep : bitsLoop (2 ^ m) b = bitsLoop (2 ^ m) (b + 1) := by
        conv_lhs => rw [bitsLoop]
        rw [if_pos hguard]
      rw [hstep]
      exact ih (m - (b + 1)) (by omega) (b + 1) rfl (by omega)
    · have hbeq : b = m := by omega
      have hno : ¬((1 <<< b) < 2 ^ m) := by
        rw [Nat.shiftLeft_eq, one_mul, hbeq]
        exact lt_irrefl _
      conv_lhs => rw [bitsLoop]
      rw [if_neg hno]
      exact hbeq

/-! ## The outer `len` loop drives the invariant to the last stage -/

theorem lenLoop_stages (x : ℕ → ℂ) (m : ℕ) :
    ∀ (d s : ℕ) (a : ℕ → ℂ), m - s = d → s ≤ m → stageInv x m s a →
      stageInv x m m (lenLoop (2 ^ m) (2 ^ s * 2) a) := by
  intro d
  induction d using Nat.strong_induction_on with
  | _ d ih =>
    intro s a hd hsm ha
    by_cases hlt : s < m
    · have hguard : 2 ≤ 2 ^ s * 2 ∧ 2 ^ s * 2 ≤ 2 ^ m := by
        constructor
        · have h1 : 1 ≤ 2 ^ s := Nat.one_le_two_pow
          omega
        · have h1 : 2 ^ s * 2 = 2 ^ (s + 1) := by rw [pow_succ]
          rw [h1]
          exact Nat.pow_le_pow_right (by norm_num) (by omega)
      have hunfold : lenLoop (2 ^ m) (2 ^ s * 2) a
          = lenLoop (2 ^ m) (2 ^ s * 2 * 2) (fftPass (2 ^ m) (2 ^ s * 2) a) := by
        conv_lhs => rw [lenLoop]
        rw [dif_pos hguard]
      rw [hunfold]
      have hps : 2 ^ s * 2 = 2 ^ (s + 1) := by rw [pow_succ]
      rw [hps]
      exact ih (m - (s + 1)) (by omega) (s + 1) _ rfl (by omega)
        (stage_step x m s hlt a ha)
    · have hseq : s = m := by omega
      have hno : ¬(2 ≤ 2 ^ s * 2 ∧ 2 ^ s * 2 ≤ 2 ^ m) := by
        rw [← hseq]
        intro hcon
        have h1 : 1 ≤ 2 ^ s := Nat.one_le_two_pow
        omega
      have hexit : lenLoop (2 ^ m) (2 ^ s * 2) a = a := by
        conv_lhs => rw [lenLoop]
        rw [dif_neg hno]
      rw [hexit]
      rw [hseq] at ha
      exact ha

/-! ## The invariant holds after bit reversal -/

theorem stageInv_init (m : ℕ) (x : ℕ → ℂ) :
    stageInv x m 0 (bitReversal (2 ^ m) m x) := by
  intro b j hb hj
  have h1 : (2 : ℕ) ^ 0 = 1 := rfl
  have hj0 : j = 0 := by omega
  subst hj0
  have hpos : b * 2 ^ 0 + 0 = b := by
    rw [h1]
    omega
  rw [hpos, bitReversal_apply]
  have hb' : b < 2 ^ m := by
    have h2 : m - 0 = m := by omega
    rw [h2] at hb
    exact hb
  rw [if_pos hb', h1, Finset.sum_range_one]
  have h2 : m - 0 = m := by omega
  rw [h2, bitRevLoop_eq_bitRevVal]
  simp

/-! ## Assembly: `computeFFT` computes the naive DFT -/

theorem computeFFT_length (input : List ℝ) :
    (computeFFT input).length = input.length := by
  simp [computeFFT]

theorem computeFFT_getD (m : ℕ) (x : List ℝ) (hx : x.length = 2 ^ m) (k : ℕ)
    (hk : k < 2 ^ m) :
    (computeFFT x).getD k 0 = dftNaive (fun p => ((x.getD p 0 : ℝ) : ℂ)) (2 ^ m) k := by
  unfold computeFFT
  rw [hx, getD_map_range _ _ hk, bitsLoop_two_pow m (m - 0) 0 rfl (by omega)]
  have hfinal := lenLoop_stages (fun p => ((x.getD p 0 : ℝ) : ℂ)) m (m - 0) 0 _ rfl
    (by omega) (stageInv_init m (fun p => ((x.getD p 0 : ℝ) : ℂ)))
  have h2 : (2 : ℕ) ^ 0 * 2 = 2 := by norm_num
  rw [h2] at hfinal
  unfold stageInv at hfinal
  have hm0 : m - m = 0 := by omega
  rw [hm0] at hfinal
  have hres := hfinal 0 k (by norm_num) hk
  have hpos : 0 * 2 ^ m + k = k := by omega
  rw [hpos] at hres
  rw [hres]
  unfold dftNaive
  apply Finset.sum_congr rfl
  intro t _
  have harg : bitRevVal 0 0 + t * 2 ^ 0 = t := by
    simp [bitRevVal]
  rw [harg]
  congr 1
  rw [twiddle_pow_eq_exp]
  congr 1
  push_cast
  ring

/-! ## C2: the iterative FFT equals the naive DFT -/

/-- C2: for every real input whose length is a power of two `2^m`, the
iterative radix-2 Cooley-Tukey `computeFFT` returns, at every bin
`k < 2^m`, exactly the naive DFT value
`X[k] = sum_{n<L} x[n] * exp(-2*pi*i*k*n/L)` (over the exact real/complex
arithmetic of the embedding). -/
theorem c2_computeFFT_eq_dftNaive (m : ℕ) (x : List ℝ) (hx : x.length = 2 ^ m)
    (k : ℕ) (hk : k < 2 ^ m) :
    (computeFFT x).getD k 0 = dftNaive (fun p => ((x.getD p 0 : ℝ) : ℂ)) (2 ^ m) k :=
  computeFFT_getD m x hx k hk

theorem c2_witness :
    ([(1 : ℝ)].length = 2 ^ 0) ∧ (0 < 2 ^ 0) ∧
    (computeFFT [(1 : ℝ)]).getD 0 0
      = dftNaive (fun p => ((([(1 : ℝ)]).getD p 0 : ℝ) : ℂ)) (2 ^ 0) 0 :=
  ⟨by simp, by norm_num, c2_computeFFT_eq_dftNaive 0 [(1 : ℝ)] (by simp) 0 (by norm_num)⟩

/-! ## `nextPowerOf2` and the padding step -/

theorem np2Loop_pow (n : ℕ) :
    ∀ (d p : ℕ), n - p = d → 0 < p → (∃ k, p = 2 ^ k) →
      ∃ m, np2Loop n p = 2 ^ m ∧ n ≤ 2 ^ m := by
  intro d
  induction d using Nat.strong_induction_on with
  | _ d ih =>
    intro p hd hp hpow
    by_cases hlt : p < n
    · have hunfold : np2Loop n p = np2Loop n (p * 2) := by
        conv_lhs => rw [np2Loop]
        rw [dif_pos ⟨hlt, hp⟩]
      rw [hunfold]
      obtain ⟨k, rfl⟩ := hpow
      exact ih (n - 2 ^ k * 2) (by omega) (2 ^ k * 2) rfl (by positivity)
        ⟨k + 1, by rw [pow_succ]⟩
    · have hexit : np2Loop n p = p := by
        conv_lhs => rw [np2Loop]
        rw [dif_neg (by omega)]
      obtain ⟨k, rfl⟩ := hpow
      exact ⟨k, hexit, by omega⟩

theorem nextPowerOf2_spec (n : ℕ) :
    ∃ m, nextPowerOf2 n = 2 ^ m ∧ n ≤ 2 ^ m := by
  unfold nextPowerOf2
  exact np2Loop_pow n (n - 1) 1 rfl (by norm_num) ⟨0, rfl⟩

theorem nextPowerOf2_ge (n : ℕ) : n ≤ nextPowerOf2 n := by
  obtain ⟨m, hm, hle⟩ := nextPowerOf2_spec n
  omega

theorem nextPowerOf2_one : nextPowerOf2 1 = 1 := by
  unfold nextPowerOf2
  conv_lhs => rw [np2Loop]
  norm_num

theorem nextPowerOf2_zero : nextPowerOf2 0 = 1 := by
  unfold nextPowerOf2
  conv_lhs => rw [np2Loop]
  norm_num

theorem padPow2_length (s : List ℝ) :
    (padPow2 s).length = nextPowerOf2 s.length := by
  unfold padPow2
  rw [List.length_append, List.length_replicate]
  have := nextPowerOf2_ge s.length
  omega

theorem padPow2_nil : padPow2 ([] : List ℝ) = [0] := by
  unfold padPow2
  simp only [List.length_nil, List.nil_append, nextPowerOf2_zero]
  rfl

theorem padPow2_single (v : ℝ) : padPow2 [v] = [v] := by
  unfold padPow2
  simp only [List.length_singleton, nextPowerOf2_one]
  rfl

/-! ## C3: the empty-input call runs the normal pipeline -/

/-- C3 (counterexample to the claim): the code performs no emptiness check
and raises nothing; the empty-input call completes normally and returns a
full 13-element cepstral vector instead of aborting. -/
theorem c3_counterexample : (processSamples []).length = 13 := by
  simp [processSamples, computeDCT]

/-- C3 (amended): an empty input is zero-padded to the length-1 frame `[0]`
and processed through the normal pipeline like any other frame, producing a
13-element output; no error path exists.  (The filterbank is a
construction-time constant that no call ever mutates, so later calls are
unaffected.) -/
theorem c3_empty_input_processed :
    padPow2 [] = [0] ∧ (processSamples []).length = 13 := by
  constructor
  · exact padPow2_nil
  · simp [processSamples, computeDCT]

/-! ## Zero frames propagate to zero mel energies -/

theorem padPow2_replicate (L : ℕ) :
    padPow2 (List.replicate L 0) = List.replicate (nextPowerOf2 L) 0 := by
  unfold padPow2
  rw [List.length_replicate, ← List.replicate_add]
  congr 1
  have := nextPowerOf2_ge L
  omega

theorem hamming_replicate_zero (n : ℕ) :
    applyHammingWindow (List.replicate n 0) = List.replicate n 0 := by
  unfold applyHammingWindow
  rw [List.length_replicate]
  refine List.eq_replicate_iff.mpr ⟨by simp, ?_⟩
  intro b hb
  obtain ⟨i, _, hbeq⟩ := List.mem_map.mp hb
  rw [← hbeq, getD_replicate_zero, zero_mul]

theorem dftNaive_zero (L k : ℕ) : dftNaive (fun _ => 0) L k = 0 := by
  unfold dftNaive
  simp

theorem powerSpectrumFor_replicate_getD (L j : ℕ) :
    (powerSpectrumFor (List.replicate L 0)).getD j 0 = 0 := by
  obtain ⟨m, hm, _⟩ := nextPowerOf2_spec L
  unfold powerSpectrumFor
  rw [padPow2_replicate, hamming_replicate_zero]
  rcases lt_or_le j ((computeFFT (List.replicate (nextPowerOf2 L) 0)).length / 2 + 1)
    with hj | hj
  · rw [getPowerSpectrum, getD_map_range _ _ hj]
    have hlen : (computeFFT (List.replicate (nextPowerOf2 L) 0)).length
        = 2 ^ m := by
      rw [computeFFT_length, List.length_replicate, hm]
    have hjm : j < 2 ^ m := by
      rw [hlen] at hj
      have h1 : 1 ≤ 2 ^ m := Nat.one_le_two_pow
      omega
    have hspec : (computeFFT (List.replicate (nextPowerOf2 L) 0)).getD j 0 = 0 := by
      rw [show List.replicate (nextPowerOf2 L) (0 : ℝ)
          = List.replicate (2 ^ m) 0 by rw [hm]]
      rw [computeFFT_getD m _ (by simp) j hjm]
      have hfun : (fun p => (((List.replicate (2 ^ m) (0 : ℝ)).getD p 0 : ℝ) : ℂ))
          = fun _ => (0 : ℂ) := by
        funext p
        rw [getD_replicate_zero]
        norm_num
      rw [hfun, dftNaive_zero]
    rw [hspec]
    simp
  · rw [getPowerSpectrum, List.getD_eq_default]
    simp only [List.length_map, List.length_range]
    omega

theorem melEnergiesFor_replicate (L : ℕ) :
    melEnergiesFor (List.replicate L 0) = List.replicate 40 0 := by
  unfold melEnergiesFor applyMelFilterbank
  refine List.eq_replicate_iff.mpr ⟨by simp [melFilterbank], ?_⟩
  intro b hb
  obtain ⟨filter, _, hbeq⟩ := List.mem_map.mp hb
  rw [← hbeq, foldl_add_range_zero
    (fun j => (powerSpectrumFor (List.replicate L 0)).getD j 0 * filter.getD j 0)]
  apply Finset.sum_eq_zero
  intro j _
  rw [powerSpectrumFor_replicate_getD, zero_mul]

/-! ## C9: the all-zero input frame -/

/-- C9: the all-zero-frame claim is the spec's intent, but the code breaks
it at the single-sample frame.  First conjunct (the failing input): the
all-zero frame `[0]` is padded to length 1, where the Hamming window's
denominator `L - 1` is literally zero - in C++ float arithmetic the
quotient `0.0/0.0` is NaN, which propagates through every mel energy,
every log-energy (`std::max(NaN, 1e-10f)` returns NaN) and all 13 outputs,
contradicting every conjunct of the claim.  Second conjunct: for every
all-zero frame of length at least 2, where no division by zero occurs and
the code's arithmetic agrees with the exact-real embedding, the claimed
chain does hold: every mel energy is exactly 0, every log-energy is
exactly `ln(1e-10)`, and the output is the fixed finite vector
`computeDCT (replicate 40 (ln 1e-10))`, independent of the frame length
and of any state - the same on every call. -/
theorem c9_zero_frame_window_bug :
    ((padPow2 (List.replicate 1 0)).length : ℝ) - 1 = 0 ∧
    (∀ L, 2 ≤ L →
      melEnergiesFor (List.replicate L 0) = List.replicate 40 0 ∧
      logEnergiesFor (List.replicate L 0) = List.replicate 40 (Real.log 1e-10) ∧
      processSamples (List.replicate L 0)
        = computeDCT (List.replicate 40 (Real.log 1e-10))) := by
  constructor
  · rw [padPow2_length, List.length_replicate, nextPowerOf2_one]
    norm_num
  · intro L _hL
    have h1 := melEnergiesFor_replicate L
    have h2 : logEnergiesFor (List.replicate L 0)
        = List.replicate 40 (Real.log 1e-10) := by
      unfold logEnergiesFor
      rw [h1, List.map_replicate]
      congr 1
      rw [max_eq_right (by norm_num)]
    refine ⟨h1, h2, ?_⟩
    unfold processSamples
    rw [h2]

theorem c9_witness :
    melEnergiesFor (List.replicate 2 0) = List.replicate 40 0 ∧
    logEnergiesFor (List.replicate 2 0) = List.replicate 40 (Real.log 1e-10) ∧
    processSamples (List.replicate 2 0)
      = computeDCT (List.replicate 40 (Real.log 1e-10)) :=
  c9_zero_frame_window_bug.2 2 (le_refl 2)

/-! ## Concrete bin bounds for the highest band -/

theorem melToHz_hzToMel (h : ℝ) (hpos : 0 < 1 + h / 700) : melToHz (hzToMel h) = h := by
  unfold melToHz hzToMel
  have harg : 2595 * Real.logb 10 (1 + h / 700) / 2595
      = Real.logb 10 (1 + h / 700) := by
    field_simp
  rw [harg, Real.rpow_logb (by norm_num) (by norm_num) hpos]
  field_simp

theorem melMin_add_41 : melMin + 41 * melStep = melMax := by
  unfold melStep
  field_simp
  ring

theorem binRight_39 : binRight 39 = 1024 := by
  unfold binRight
  have hedge : melMin + (((39 : ℕ) : ℝ) + 2) * melStep = melMax := by
    rw [show (((39 : ℕ) : ℝ) + 2) = 41 by norm_num]
    exact melMin_add_41
  rw [hedge]
  have hmel : melToHz melMax = 22050 := by
    unfold melMax
    rw [melToHz_hzToMel _ (by norm_num)]
    norm_num
  rw [hmel]
  unfold binClamp
  have hval : (22050 : ℝ) * (filterLength : ℝ) / (44100 / 2) = ((1025 : ℤ) : ℝ) := by
    norm_num [filterLength]
  rw [hval, Int.floor_intCast]
  norm_num [filterLength]
  decide

theorem melStep_lower : melMax - hzToMel 22028 ≤ melStep := by
  simp only [melStep, melMax, melMin, hzToMel]
  have h4 : (1 : ℝ) + 44100 / 2 / 700 = 1 + 22050 / 700 := by norm_num
  rw [h4]
  rw [Real.logb, Real.logb, Real.logb]
  have hl : 0 < Real.log 10 := Real.log_pos (by norm_num)
  have hAC : Real.log (1 + 22050 / 700) - Real.log (1 + 22028 / 700)
      ≤ 22750 / 22728 - 1 := by
    rw [← Real.log_div (by norm_num) (by norm_num)]
    rw [show ((1 : ℝ) + 22050 / 700) / (1 + 22028 / 700) = 22750 / 22728 by norm_num]
    exact Real.log_le_sub_one_of_pos (by norm_num)
  have hB : Real.log (1 + 20 / 700) ≤ 1 + 20 / 700 - 1 :=
    Real.log_le_sub_one_of_pos (by norm_num)
  have hA : Real.log 2 ≤ Real.log (1 + 22050 / 700) :=
    Real.log_le_log (by norm_num) (by norm_num)
  have hlog2 := Real.log_two_gt_d9
  have key : 41 * (Real.log (1 + 22050 / 700) - Real.log (1 + 22028 / 700))
      ≤ Real.log (1 + 22050 / 700) - Real.log (1 + 20 / 700) := by
    linarith
  have h := (div_le_div_iff_of_pos_right hl).mpr key
  have e1 : (41 * (Real.log (1 + 22050 / 700) - Real.log (1 + 22028 / 700))) / Real.log 10
      = 41 * (Real.log (1 + 22050 / 700) / Real.log 10)
        - 41 * (Real.log (1 + 22028 / 700) / Real.log 10) := by ring
  have e2 : (Real.log (1 + 22050 / 700) - Real.log (1 + 20 / 700)) / Real.log 10
      = Real.log (1 + 22050 / 700) / Real.log 10
        - Real.log (1 + 20 / 700) / Real.log 10 := by ring
  linarith [h, e1, e2]

theorem binCenter_39_le : binCenter 39 ≤ 1023 := by
  unfold binCenter
  have hedge : melMin + (((39 : ℕ) : ℝ) + 1) * melStep = melMax - melStep := by
    have h41 := melMin_add_41
    rw [show (((39 : ℕ) : ℝ) + 1) = 40 by norm_num]
    linarith
  rw [hedge]
  have hhz : melToHz (melMax - melStep) ≤ 22028 := by
    calc melToHz (melMax - melStep)
        ≤ melToHz (hzToMel 22028) := melToHz_mono (by linarith [melStep_lower])
      _ = 22028 := melToHz_hzToMel 22028 (by norm_num)
  unfold binClamp
  rw [Int.toNat_le]
  apply max_le (by norm_num)
  apply le_trans (min_le_right _ _)
  have hlt : melToHz (melMax - melStep) * (filterLength : ℝ) / (44100 / 2)
      < ((1024 : ℤ) : ℝ) := by
    rw [filterLength_eq]
    push_cast
    linarith
  have hfl := Int.floor_lt.mpr hlt
  omega

theorem mkFilter_39_at_1023_pos : 0 < (mkFilter 39).getD 1023 0 := by
  have hbr := binRight_39
  have hbc := binCenter_39_le
  unfold mkFilter
  rw [hbr, fallingLoop_getD,
    if_pos ⟨by omega, by omega, by omega, by
      rw [risingLoop_length, List.length_replicate, filterLength_eq]
      omega⟩]
  apply div_pos
  · have h1 : (0 : ℕ) < 1024 - 1023 := by omega
    exact_mod_cast h1
  · have h2 : (0 : ℕ) < 1024 - binCenter 39 := by omega
    exact_mod_cast h2

theorem powerSpectrumFor_single_length : (powerSpectrumFor [(1 : ℝ)]).length = 1 := by
  unfold powerSpectrumFor
  rw [padPow2_single]
  unfold getPowerSpectrum
  rw [List.length_map, List.length_range, computeFFT_length]
  have h : (applyHammingWindow [(1 : ℝ)]).length = 1 := by
    unfold applyHammingWindow
    rw [List.length_map, List.length_range]
    rfl
  rw [h]

/-! ## C7: energies are truncated dot products -/

/-- C7 (counterexample): for the one-sample input frame `[1]` the per-call
PowerSpectrum has length 1 (the frame is padded to `nextPowerOf2 1 = 1`
samples, not to 2048), while filter 39 of the filterbank has a strictly
positive weight at bin 1023 - far outside `[0, PowerSpectrum length - 1]`.
Consequently the energy sum, truncated at
`min(powerSpectrum.size, filter.size) = 1`, does not range over the
filter's non-zero support. -/
theorem c7_counterexample :
    (powerSpectrumFor [(1 : ℝ)]).length = 1 ∧
    0 < (melFilterbank.getD 39 []).getD 1023 0 := by
  refine ⟨powerSpectrumFor_single_length, ?_⟩
  rw [melFilterbank_getD 39 (by norm_num)]
  exact mkFilter_39_at_1023_pos

/-- C7 (amended): whenever the per-call PowerSpectrum has at least 1025
entries (i.e. the padded frame has at least 2048 samples) the mel energy of
each band is the full dot product over the filter's entire 1025-entry
support; for shorter power spectra the code truncates the sum at the
PowerSpectrum length, and filters do have non-zero weights beyond it. -/
theorem c7_energy_full_dot_product (ps : List ℝ) (hps : 1025 ≤ ps.length)
    (b : ℕ) (hb : b < 40) :
    (applyMelFilterbank ps).getD b 0
      = ∑ j ∈ Finset.range 1025, ps.getD j 0 * (melFilterbank.getD b []).getD j 0 := by
  rw [melFilterbank_getD b hb]
  unfold applyMelFilterbank melFilterbank
  rw [List.map_map, getD_map_range _ _ hb]
  simp only [Function.comp]
  rw [mkFilter_length, min_eq_right hps,
    foldl_add_range_zero (fun j => ps.getD j 0 * (mkFilter b).getD j 0)]

theorem c7_witness :
    1025 ≤ (List.replicate 1025 (0 : ℝ)).length ∧ 0 < 40 ∧
    (applyMelFilterbank (List.replicate 1025 (0 : ℝ))).getD 0 0
      = ∑ j ∈ Finset.range 1025, (List.replicate 1025 (0 : ℝ)).getD j 0 *
          (melFilterbank.getD 0 []).getD j 0 :=
  ⟨by rw [List.length_replicate], by norm_num,
    c7_energy_full_dot_product (List.replicate 1025 0)
      (by rw [List.length_replicate]) 0 (by norm_num)⟩
